import Mathlib

/-!
Verification development for the state-cache and bytecode-preparation core of
an EVM implementation: `CacheDB` (crates/revm/src/db/in_memory_db.rs) and
`Bytecode` (crates/revm/src/interpreter/bytecode.rs), embedded shallowly.
Machine words are modelled as `Nat` (the `u32` gas accumulators reduce modulo
2^32 on every addition), byte buffers as `List Nat` (entries below 256), and
`BTreeMap`/`HashMap` values as association lists.
-/

/-- Association-list lookup, modelling `BTreeMap::get` / `HashMap::get`. -/
def alistLookup {α : Type} : List (Nat × α) → Nat → Option α
  | [], _ => none
  | (k', v') :: rest, k => if k' = k then some v' else alistLookup rest k

/-- Association-list insert-or-overwrite, modelling `BTreeMap::insert`. -/
def alistInsert {α : Type} : List (Nat × α) → Nat → α → List (Nat × α)
  | [], k, v => [(k, v)]
  | (k', v') :: rest, k, v =>
    if k' = k then (k, v) :: rest else (k', v') :: alistInsert rest k v

theorem alistLookup_insert_self {α : Type} (m : List (Nat × α)) (k : Nat) (v : α) :
    alistLookup (alistInsert m k v) k = some v := by
  induction m with
  | nil => simp [alistInsert, alistLookup]
  | cons hd tl ih =>
    obtain ⟨k', v'⟩ := hd
    by_cases h : k' = k
    · simp [alistInsert, alistLookup, h]
    · simp [alistInsert, alistLookup, h, ih]

/-- Byte read from a buffer, modelling an (in-bounds) `u8` slice index;
out-of-range reads default to 0 in the total model. -/
def getByte : List Nat → Nat → Nat
  | [], _ => 0
  | b :: _, 0 => b
  | _ :: rest, i + 1 => getByte rest i

theorem getByte_mem (code : List Nat) (i : Nat) (h : i < code.length) :
    getByte code i ∈ code := by
  induction code generalizing i with
  | nil => simp at h
  | cons b rest ih =>
    cases i with
    | zero => simp [getByte]
    | succ j =>
      simp only [List.length_cons, Nat.succ_lt_succ_iff] at h
      exact List.mem_cons_of_mem _ (ih j h)

/-- Per-offset annotation produced by the analysis pass.
Modelled from the spec: the repository's `AnalysisData` (in the out-of-tree
`contract` module) carries a boolean "valid jump destination" flag and, for
block-start offsets, an aggregated gas cost; `AnalysisData::none()` is the
all-clear value. -/
structure AnalysisData where
  is_jump : Bool
  gas_block : Nat
deriving DecidableEq, Repr

/-- AnalysisData.none: the all-clear annotation (`AnalysisData::none()`). -/
def AnalysisData.none : AnalysisData := ⟨false, 0⟩

/-- Modelled from the spec: `AnalysisData::set_is_jump` marks the offset as a
valid jump destination. -/
def AnalysisData.set_is_jump (a : AnalysisData) : AnalysisData :=
  { a with is_jump := true }

/-- Modelled from the spec: `AnalysisData::set_gas_block` records the
aggregated gas for the block starting at this offset. -/
def AnalysisData.set_gas_block (g : Nat) (a : AnalysisData) : AnalysisData :=
  { a with gas_block := g }

/-- Read of the annotation array (`Vec<AnalysisData>` index); out-of-range
reads give the all-clear value in the total model. -/
def getAD : List AnalysisData → Nat → AnalysisData
  | [], _ => AnalysisData.none
  | a :: _, 0 => a
  | _ :: rest, i + 1 => getAD rest i

/-- In-place update of one entry of the annotation array
(`jumps.get_unchecked_mut(i)` followed by a field update); a no-op when `i`
is out of range in the total model. -/
def modifyAt : List AnalysisData → Nat → (AnalysisData → AnalysisData) → List AnalysisData
  | [], _, _ => []
  | a :: rest, 0, f => f a :: rest
  | a :: rest, i + 1, f => a :: modifyAt rest i f

theorem length_modifyAt (l : List AnalysisData) (i : Nat) (f : AnalysisData → AnalysisData) :
    (modifyAt l i f).length = l.length := by
  induction l generalizing i with
  | nil => rfl
  | cons a rest ih =>
    cases i with
    | zero => rfl
    | succ j => simp [modifyAt, ih]

theorem getAD_modifyAt_ne (l : List AnalysisData) (i j : Nat)
    (f : AnalysisData → AnalysisData) (h : j ≠ i) :
    getAD (modifyAt l i f) j = getAD l j := by
  induction l generalizing i j with
  | nil => rfl
  | cons a rest ih =>
    cases i with
    | zero =>
      cases j with
      | zero => exact absurd rfl h
      | succ j' => rfl
    | succ i' =>
      cases j with
      | zero => rfl
      | succ j' =>
        simp only [modifyAt, getAD]
        exact ih i' j' (fun hc => h (by simp [hc]))

theorem getAD_modifyAt_self (l : List AnalysisData) (i : Nat)
    (f : AnalysisData → AnalysisData) (h : i < l.length) :
    getAD (modifyAt l i f) i = f (getAD l i) := by
  induction l generalizing i with
  | nil => simp at h
  | cons a rest ih =>
    cases i with
    | zero => rfl
    | succ i' =>
      simp only [List.length_cons, Nat.succ_lt_succ_iff] at h
      simp only [modifyAt, getAD]
      exact ih i' h

theorem modifyAt_oob (l : List AnalysisData) (i : Nat)
    (f : AnalysisData → AnalysisData) (h : l.length ≤ i) :
    modifyAt l i f = l := by
  induction l generalizing i with
  | nil => rfl
  | cons a rest ih =>
    cases i with
    | zero => simp at h
    | succ i' =>
      simp only [List.length_cons, Nat.succ_le_succ_iff] at h
      simp [modifyAt, ih i' h]

/-- Sum of the recorded per-block gas over the annotation array. -/
def sumGB : List AnalysisData → Nat
  | [] => 0
  | a :: rest => a.gas_block + sumGB rest

theorem sumGB_modifyAt_jump (l : List AnalysisData) (i : Nat) :
    sumGB (modifyAt l i AnalysisData.set_is_jump) = sumGB l := by
  induction l generalizing i with
  | nil => rfl
  | cons a rest ih =>
    cases i with
    | zero => rfl
    | succ i' => simp [modifyAt, sumGB, ih]

theorem sumGB_modifyAt_gb (l : List AnalysisData) (i : Nat) (g : Nat)
    (hlt : i < l.length) (h0 : (getAD l i).gas_block = 0) :
    sumGB (modifyAt l i (AnalysisData.set_gas_block g)) = sumGB l + g := by
  induction l generalizing i with
  | nil => simp at hlt
  | cons a rest ih =>
    cases i with
    | zero =>
      simp only [getAD] at h0
      simp [modifyAt, sumGB, AnalysisData.set_gas_block, h0]
      omega
    | succ i' =>
      simp only [List.length_cons, Nat.succ_lt_succ_iff] at hlt
      simp only [getAD] at h0
      simp only [modifyAt, sumGB, ih i' hlt h0]
      omega

theorem gasBlock_modifyAt_jump (l : List AnalysisData) (i j : Nat) :
    (getAD (modifyAt l i AnalysisData.set_is_jump) j).gas_block = (getAD l j).gas_block := by
  by_cases h : j = i
  · subst h
    by_cases hlt : j < l.length
    · rw [getAD_modifyAt_self l j _ hlt]; rfl
    · rw [modifyAt_oob l j _ (Nat.le_of_not_lt hlt)]
  · rw [getAD_modifyAt_ne l i j _ h]

/-- Jump flag at an offset of the annotation array. -/
def isJ (l : List AnalysisData) (i : Nat) : Bool := (getAD l i).is_jump

theorem isJ_modifyAt_gb (l : List AnalysisData) (i j : Nat) (g : Nat) :
    isJ (modifyAt l i (AnalysisData.set_gas_block g)) j = isJ l j := by
  unfold isJ
  by_cases h : j = i
  · subst h
    by_cases hlt : j < l.length
    · rw [getAD_modifyAt_self l j _ hlt]; rfl
    · rw [modifyAt_oob l j _ (Nat.le_of_not_lt hlt)]
  · rw [getAD_modifyAt_ne l i j _ h]

theorem isJ_modifyAt_jump (l : List AnalysisData) (i j : Nat)
    (h : isJ (modifyAt l i AnalysisData.set_is_jump) j = true) :
    j = i ∨ isJ l j = true := by
  by_cases hji : j = i
  · exact Or.inl hji
  · right
    rw [isJ, getAD_modifyAt_ne l i j _ hji] at h
    exact h

theorem isJ_replicate (n i : Nat) :
    isJ (List.replicate n AnalysisData.none) i = false := by
  induction n generalizing i with
  | zero => rfl
  | succ m ih =>
    cases i with
    | zero => rfl
    | succ j => simpa [List.replicate, isJ, getAD] using ih j

/-- Per-opcode information from the gas/flag table.
Modelled from the spec: `spec_opcode_gas(SPEC_ID)` yields, for each of the 256
opcode values, its base gas cost, whether it is a push opcode (operand width
encoded in the opcode value), whether it is the jump-destination marker, and
whether it ends a gas block (control-flow/terminator opcodes). -/
structure OpInfo where
  gas : Nat
  is_push : Bool
  is_jump : Bool
  is_gas_block_end : Bool
deriving DecidableEq, Repr

/-- Instruction-pointer advance over a push opcode:
`((opcode - opcode::PUSH1) + 2) as usize` with wrapping `u8` subtraction
(PUSH1 = 0x60 = 96). -/
def pushAdvance (op : Nat) : Nat := (op + 256 - 96) % 256 + 2

/-- Instruction-pointer advance at offset `i` of the code: `1 + n` operand
bytes for a push opcode, 1 otherwise. -/
def advanceOf (table : Nat → OpInfo) (code : List Nat) (i : Nat) : Nat :=
  if (table (getByte code i)).is_push then pushAdvance (getByte code i) else 1

theorem advanceOf_pos (table : Nat → OpInfo) (code : List Nat) (i : Nat) :
    1 ≤ advanceOf table code i := by
  unfold advanceOf pushAdvance
  split <;> omega

/-- Mutable local state of `Bytecode::analyze`'s scan: the instruction pointer,
the two `u32` gas accumulators, the current block start, and the annotation
array under construction. -/
structure ScanState where
  index : Nat
  first_gas_block : Nat
  gas_in_block : Nat
  block_start : Nat
  jumps : List AnalysisData
deriving Repr

/-- First loop of `Bytecode::analyze` (bytecode.rs lines 164-184): accumulate
`first_gas_block` until the first gas-block-end opcode, flag it as a jump
destination when it is one, and stop there.  The `fuel` argument bounds the
iteration count; `analyze` passes `code.length`, which always suffices since
the instruction pointer strictly increases. -/
def loop1 (table : Nat → OpInfo) (code : List Nat) : Nat → ScanState → ScanState
  | 0, s => s
  | fuel + 1, s =>
    if s.index < code.length then
      let op := getByte code s.index
      let info := table op
      let fgb := (s.first_gas_block + info.gas) % 4294967296
      let index' := s.index + (if info.is_push then pushAdvance op else 1)
      if info.is_gas_block_end then
        { s with
          index := index'
          first_gas_block := fgb
          block_start := index' - 1
          jumps :=
            if info.is_jump then modifyAt s.jumps (index' - 1) AnalysisData.set_is_jump
            else s.jumps }
      else
        loop1 table code fuel { s with index := index', first_gas_block := fgb }
    else s

/-- Second loop of `Bytecode::analyze` (bytecode.rs lines 186-210): accumulate
gas per block, record it at the block's start offset at every gas-block-end
opcode, and flag jump-destination opcodes at their own offset. -/
def loop2 (table : Nat → OpInfo) (code : List Nat) : Nat → ScanState → ScanState
  | 0, s => s
  | fuel + 1, s =>
    if s.index < code.length then
      let op := getByte code s.index
      let info := table op
      let gib := (s.gas_in_block + info.gas) % 4294967296
      if info.is_gas_block_end then
        loop2 table code fuel
          { index := s.index + 1
            first_gas_block := s.first_gas_block
            gas_in_block := 0
            block_start := s.index
            jumps :=
              modifyAt
                (if info.is_jump then modifyAt s.jumps s.index AnalysisData.set_is_jump
                 else s.jumps)
                s.block_start (AnalysisData.set_gas_block gib) }
      else
        loop2 table code fuel
          { s with
            gas_in_block := gib
            index := s.index + (if info.is_push then pushAdvance op else 1) }
    else s

/-- Initial scan state of `Bytecode::analyze`: annotation array
`vec![AnalysisData::none(); code.len()]`, all counters at zero. -/
def initState (code : List Nat) : ScanState :=
  { index := 0
    first_gas_block := 0
    gas_in_block := 0
    block_start := 0
    jumps := List.replicate code.length AnalysisData.none }

/-- Scan state after both loops of `Bytecode::analyze`. -/
def analyzeFinal (table : Nat → OpInfo) (code : List Nat) : ScanState :=
  loop2 table code code.length (loop1 table code code.length (initState code))

/-- Result of the analysis pass: `first_gas_block` plus the annotation array.
Mirrors the repository's `ValidJumpAddress` (out-of-tree `contract` module). -/
structure ValidJumpAddress where
  first_gas_block : Nat
  analysis : List AnalysisData
deriving DecidableEq, Repr

/-- Modelled from the spec: `ValidJumpAddress::new(analysis, first_gas_block)`
(constructor used by `Bytecode::new`). -/
def ValidJumpAddress.new (analysis : List AnalysisData) (first_gas_block : Nat) :
    ValidJumpAddress :=
  ⟨first_gas_block, analysis⟩

/-- `Bytecode::analyze` (bytecode.rs lines 150-217): both scan loops followed
by the trailing-block fix-up (record the last block's gas when nonzero). -/
def analyze (table : Nat → OpInfo) (code : List Nat) : ValidJumpAddress :=
  let s := analyzeFinal table code
  { first_gas_block := s.first_gas_block
    analysis :=
      if s.gas_in_block ≠ 0 then
        modifyAt s.jumps s.block_start (AnalysisData.set_gas_block s.gas_in_block)
      else s.jumps }

/-- Sum of the individual per-instruction gas costs along the scan's
instruction walk starting at offset `i`, with an explicit iteration bound.
This is the specification-side quantity claim C5 compares the table against. -/
def gasWalk (table : Nat → OpInfo) (code : List Nat) : Nat → Nat → Nat
  | 0, _ => 0
  | fuel + 1, i =>
    if i < code.length then
      (table (getByte code i)).gas + gasWalk table code fuel (i + advanceOf table code i)
    else 0

/-- Canonical remaining instruction-walk gas from offset `i` (sufficient fuel). -/
def walkG (table : Nat → OpInfo) (code : List Nat) (i : Nat) : Nat :=
  gasWalk table code (code.length - i) i

/-- Offsets reachable from `i` by the scan's instruction-pointer advance:
the instruction-start offsets of the walk beginning at `i`. -/
inductive Reach (table : Nat → OpInfo) (code : List Nat) : Nat → Nat → Prop where
  | refl (i : Nat) : Reach table code i i
  | next {i j : Nat} : Reach table code i j → Reach table code i (j + advanceOf table code j)

/-- An offset lying strictly inside the operand bytes of a push opcode that
the scan actually visits. -/
def InPushOperand (table : Nat → OpInfo) (code : List Nat) (off : Nat) : Prop :=
  ∃ p, Reach table code 0 p ∧ p < code.length ∧
    (table (getByte code p)).is_push = true ∧
    p < off ∧ off < p + advanceOf table code p

/-- Modelled from the spec: a representative opcode gas/flag table for one
rule set (`spec_opcode_gas(SPEC_ID)`).  Pushes occupy 0x60..=0x7f; the
jump-destination marker JUMPDEST (0x5b) and the control-flow/terminator
opcodes JUMP (0x56), JUMPI (0x57), STOP (0x00), RETURN (0xf3), REVERT (0xfd)
and SELFDESTRUCT (0xff) end gas blocks.  Gas values are nominal: the claims
proved below never depend on the specific numbers. -/
def spec_opcode_gas (op : Nat) : OpInfo :=
  if 96 ≤ op ∧ op ≤ 127 then ⟨3, true, false, false⟩
  else if op = 91 then ⟨1, false, true, true⟩
  else if op = 86 then ⟨8, false, false, true⟩
  else if op = 87 then ⟨10, false, false, true⟩
  else if op = 0 then ⟨0, false, false, true⟩
  else if op = 243 ∨ op = 253 ∨ op = 255 then ⟨0, false, false, true⟩
  else ⟨3, false, false, false⟩

theorem spec_opcode_gas_push_not_end (op : Nat)
    (h : (spec_opcode_gas op).is_gas_block_end = true) :
    (spec_opcode_gas op).is_push = false := by
  unfold spec_opcode_gas at *
  split_ifs at * <;> simp_all

/-- Preparation-state tag of a code blob (`BytecodeState`, bytecode.rs 9-19). -/
inductive BytecodeState where
  | Raw : BytecodeState
  | Checked : Nat → BytecodeState
  | Analysed : Nat → ValidJumpAddress → BytecodeState
deriving Repr

/-- Raw program bytes plus preparation-state tag (`Bytecode`, bytecode.rs 21-25). -/
structure Bytecode where
  bytecode : List Nat
  state : BytecodeState
deriving Repr

/-- `Bytecode::new` (bytecode.rs 34-43): the canonical no-code value — a
one-byte buffer holding a single STOP opcode, already in the `Analysed` state
with semantic length 0 and an empty annotation array. -/
def Bytecode.new : Bytecode :=
  { bytecode := [0]
    state := BytecodeState.Analysed 0 (ValidJumpAddress.new [] 0) }

/-- `Bytecode::default` (bytecode.rs 27-31) delegates to `Bytecode::new`. -/
def Bytecode.default : Bytecode := Bytecode.new

/-- `Bytecode::new_raw` (bytecode.rs 45-50). -/
def Bytecode.new_raw (bytecode : List Nat) : Bytecode :=
  { bytecode := bytecode, state := BytecodeState.Raw }

/-- `Bytecode::hash` (bytecode.rs 74-85): hash of exactly the original bytes
(`Raw` hashes the whole buffer, `Checked`/`Analysed` hash the first `len`
bytes), with the canonical empty-code constant for a zero-length result.
The Keccak-256 function and the `KECCAK_EMPTY` constant live outside the two
source files and are taken as parameters (`keccak`, `keccakEmpty`). -/
def Bytecode.hash (keccak : List Nat → Nat) (keccakEmpty : Nat) (b : Bytecode) : Nat :=
  let to_hash : List Nat :=
    match b.state with
    | BytecodeState.Raw => b.bytecode
    | BytecodeState.Checked len => b.bytecode.take len
    | BytecodeState.Analysed len _ => b.bytecode.take len
  if to_hash.isEmpty then keccakEmpty else keccak to_hash

/-- `Bytecode::is_empty` (bytecode.rs 87-93). -/
def Bytecode.is_empty (b : Bytecode) : Bool :=
  match b.state with
  | BytecodeState.Raw => b.bytecode.isEmpty
  | BytecodeState.Checked len => len == 0
  | BytecodeState.Analysed len _ => len == 0

/-- `Bytecode::to_checked` (bytecode.rs 103-116): pad a `Raw` buffer with 33
zero bytes (`resize(len + 33, 0)`) and record the original length; a no-op on
already-checked or analysed bytecode. -/
def Bytecode.to_checked (b : Bytecode) : Bytecode :=
  match b.state with
  | BytecodeState.Raw =>
    { bytecode := b.bytecode ++ List.replicate 33 0
      state := BytecodeState.Checked b.bytecode.length }
  | _ => b

/-- `Bytecode::to_analysed` (bytecode.rs 118-134): pad if needed, then run the
analysis pass over the (padded) buffer; a no-op on analysed bytecode. -/
def Bytecode.to_analysed (table : Nat → OpInfo) (b : Bytecode) : Bytecode :=
  match b.state with
  | BytecodeState.Raw =>
    let len := b.bytecode.length
    let checked := b.to_checked
    { bytecode := checked.bytecode
      state := BytecodeState.Analysed len (analyze table checked.bytecode) }
  | BytecodeState.Checked len =>
    { bytecode := b.bytecode
      state := BytecodeState.Analysed len (analyze table b.bytecode) }
  | BytecodeState.Analysed _ _ => b

/-- Analysis-complete view of code (`BytecodeLocked`, bytecode.rs 220-224). -/
structure BytecodeLocked where
  bytecode : List Nat
  len : Nat
  jumptable : ValidJumpAddress
deriving Repr

/-- `Bytecode::lock` (bytecode.rs 136-147): force analysis, then capture the
buffer, the original length and the jump table.  The source's `unreachable!`
branch is modelled as `none`. -/
def Bytecode.lock (table : Nat → OpInfo) (b : Bytecode) : Option BytecodeLocked :=
  match Bytecode.to_analysed table b with
  | { bytecode := bc, state := BytecodeState.Analysed len jumptable } =>
    some { bytecode := bc, len := len, jumptable := jumptable }
  | _ => none

/-- `BytecodeLocked::unlock` (bytecode.rs 234-242): rebuild the `Analysed`
Bytecode from the captured buffer, length and table, without recomputation. -/
def BytecodeLocked.unlock (lb : BytecodeLocked) : Bytecode :=
  { bytecode := lb.bytecode
    state := BytecodeState.Analysed lb.len lb.jumptable }

/-- Jump flags of an analysed Bytecode's annotation array (empty for
non-analysed states); observation helper for the claims. -/
def Bytecode.jtFlags (b : Bytecode) : List Bool :=
  match b.state with
  | BytecodeState.Analysed _ jt => jt.analysis.map AnalysisData.is_jump
  | _ => []

/-- Length of an analysed Bytecode's annotation array; observation helper. -/
def Bytecode.analysisLen (b : Bytecode) : Option Nat :=
  match b.state with
  | BytecodeState.Analysed _ jt => some jt.analysis.length
  | _ => none

/-- Account info as this layer needs it.  Modelled from the spec: nonce,
balance, optional code, code hash (external `AccountInfo` type). -/
structure AccountInfo where
  nonce : Nat
  balance : Nat
  code : Option Bytecode
  code_hash : Nat
deriving Repr

/-- Modelled from the spec: the default (zeroed) `AccountInfo`. -/
def AccountInfo.default : AccountInfo :=
  { nonce := 0, balance := 0, code := none, code_hash := 0 }

/-- Storage-clearing state tag of a cached record (`AccountState`,
in_memory_db.rs 41-50). -/
inductive AccountState where
  | EVMTouched : AccountState
  | EVMStorageCleared : AccountState
  | None : AccountState
deriving Repr

/-- Variant test corresponding to
`matches!(state, AccountState::EVMStorageCleared)`. -/
def AccountState.isCleared : AccountState → Bool
  | AccountState.EVMStorageCleared => true
  | _ => false

/-- Per-address cached record (`DbAccount`, in_memory_db.rs 32-39). -/
structure DbAccount where
  info : AccountInfo
  account_state : AccountState
  storage : List (Nat × Nat)
deriving Repr

/-- Default `DbAccount` (`#[derive(Default)]`): default info, state `None`,
empty storage. -/
def DbAccount.default : DbAccount :=
  { info := AccountInfo.default, account_state := AccountState.None, storage := [] }

/-- Read-only backing-provider capability set (`DatabaseRef`), as a record of
pure query functions. -/
structure DatabaseRef where
  basic : Nat → AccountInfo
  storage : Nat → Nat → Nat
  code_by_hash : Nat → Bytecode
  block_hash : Nat → Nat

/-- The caching state store (`CacheDB`, in_memory_db.rs 20-30). -/
structure CacheDB where
  accounts : List (Nat × DbAccount)
  contracts : List (Nat × Bytecode)
  logs : List Nat
  block_hashes : List (Nat × Nat)
  db : DatabaseRef

/-- Commit-time per-slot value.  Modelled from the spec: a slot delta carries
the "present value" to persist. -/
structure StorageSlot where
  present_value : Nat
deriving Repr

/-- Commit-time account delta.  Modelled from the spec: `info`, slot →
present-value map, `storage_cleared` and `is_destroyed` flags (external
`Account` type). -/
structure Account where
  info : AccountInfo
  storage : List (Nat × StorageSlot)
  storage_cleared : Bool
  is_destroyed : Bool

/-- `CacheDB::insert_contract` (in_memory_db.rs 66-78): register non-empty
code under its hash and normalize a zero code hash to the canonical
empty-code hash; returns the adjusted info and the new contracts map. -/
def CacheDB.insert_contract (keccak : List Nat → Nat) (keccakEmpty : Nat)
    (contracts : List (Nat × Bytecode)) (account : AccountInfo) :
    AccountInfo × List (Nat × Bytecode) :=
  let (account, contracts) :=
    match account.code with
    | some code =>
      if code.is_empty then (account, contracts)
      else
        let h := Bytecode.hash keccak keccakEmpty code
        ({ account with code_hash := h },
         match alistLookup contracts h with
         | some _ => contracts
         | none => alistInsert contracts h code)
    | none => (account, contracts)
  if account.code_hash = 0 then ({ account with code_hash := keccakEmpty }, contracts)
  else (account, contracts)

/-- `CacheDB::replace_account_storage` (in_memory_db.rs 100-108): transition
the address to `EVMStorageCleared` and wholesale-replace its storage map
(creating the record from the backing provider's info on a miss). -/
def CacheDB.replace_account_storage (c : CacheDB) (address : Nat)
    (storage : List (Nat × Nat)) : CacheDB :=
  let acc :=
    (alistLookup c.accounts address).getD
      { info := c.db.basic address, account_state := AccountState.None, storage := [] }
  { c with
    accounts :=
      alistInsert c.accounts address
        { acc with account_state := AccountState.EVMStorageCleared, storage := storage } }

/-- `CacheDB::commit` (in_memory_db.rs 111-140): fold the batch of account
deltas into the local state.  A destroyed account gets cleared storage, the
`EVMStorageCleared` state and default info, and skips code registration;
otherwise code is registered, info replaced, storage cleared or kept per
`storage_cleared`, and present values merged in. -/
def CacheDB.commit (keccak : List Nat → Nat) (keccakEmpty : Nat) (c : CacheDB)
    (changes : List (Nat × Account)) : CacheDB :=
  changes.foldl
    (fun c p =>
      let address := p.1
      let account := p.2
      if account.is_destroyed then
        let db_account := (alistLookup c.accounts address).getD DbAccount.default
        { c with
          accounts :=
            alistInsert c.accounts address
              { db_account with
                storage := []
                account_state := AccountState.EVMStorageCleared
                info := AccountInfo.default } }
      else
        let (info, contracts) :=
          CacheDB.insert_contract keccak keccakEmpty c.contracts account.info
        let c := { c with contracts := contracts }
        let db_account := (alistLookup c.accounts address).getD DbAccount.default
        let db_account := { db_account with info := info }
        let db_account :=
          if account.storage_cleared then
            { db_account with
              account_state := AccountState.EVMStorageCleared
              storage :=
                account.storage.foldl
                  (fun m kv => alistInsert m kv.1 kv.2.present_value) [] }
          else
            { db_account with
              account_state := AccountState.EVMTouched
              storage :=
                account.storage.foldl
                  (fun m kv => alistInsert m kv.1 kv.2.present_value) db_account.storage }
        { c with accounts := alistInsert c.accounts address db_account })
    c

/-- `Database::basic` for `CacheDB` (in_memory_db.rs 154-167), the mutable /
memoizing variant: cached info on a hit; on a miss, fetch from the backing
provider and insert an `EVMTouched` record. -/
def CacheDB.basic_mut (c : CacheDB) (address : Nat) : AccountInfo × CacheDB :=
  match alistLookup c.accounts address with
  | some acc => (acc.info, c)
  | none =>
    let info := c.db.basic address
    (info,
     { c with
       accounts :=
         alistInsert c.accounts address
           { info := info, account_state := AccountState.EVMTouched, storage := [] } })

/-- `DatabaseRef::basic` for `CacheDB` (in_memory_db.rs 222-227), the
read-only variant: cached info on a hit, otherwise delegate without
memoizing. -/
def CacheDB.basic_ref (c : CacheDB) (address : Nat) : AccountInfo :=
  match alistLookup c.accounts address with
  | some acc => acc.info
  | none => c.db.basic address

/-- `Database::storage` for `CacheDB` (in_memory_db.rs 172-201), the mutable /
memoizing variant: four-way resolution over (record present?, slot cached?,
state cleared?). -/
def CacheDB.storage_mut (c : CacheDB) (address index : Nat) : Nat × CacheDB :=
  match alistLookup c.accounts address with
  | some acc =>
    match alistLookup acc.storage index with
    | some v => (v, c)
    | none =>
      if acc.account_state.isCleared then (0, c)
      else
        let slot := c.db.storage address index
        (slot,
         { c with
           accounts :=
             alistInsert c.accounts address
               { acc with storage := alistInsert acc.storage index slot } })
  | none =>
    let info := c.db.basic address
    let value := c.db.storage address index
    (value,
     { c with
       accounts :=
         alistInsert c.accounts address
           { info := info
             account_state := AccountState.None
             storage := [(index, value)] } })

/-- `DatabaseRef::storage` for `CacheDB` (in_memory_db.rs 229-243), the
read-only variant of the four-way resolution. -/
def CacheDB.storage_ref (c : CacheDB) (address index : Nat) : Nat :=
  match alistLookup c.accounts address with
  | some acc =>
    match alistLookup acc.storage index with
    | some v => v
    | none =>
      if acc.account_state.isCleared then 0
      else c.db.storage address index
  | none => c.db.storage address index

/-- C1: for every cached state store, address A and slot S: if A has a cached
record whose state tag is `EVMStorageCleared` and S is absent from that
record's storage map, then `storage(A, S)` returns zero and the cache state is
returned unchanged, in both the mutable and the read-only query variants.
Since the store `c` (and hence its backing provider `c.db`) is universally
quantified and the result `(0, c)` never consults it, the backing provider's
storage query is never invoked. -/
theorem storage_cleared_miss_returns_zero (c : CacheDB) (A S : Nat) (acc : DbAccount)
    (hacc : alistLookup c.accounts A = some acc)
    (hcl : acc.account_state = AccountState.EVMStorageCleared)
    (hslot : alistLookup acc.storage S = none) :
    CacheDB.storage_mut c A S = (0, c) ∧ CacheDB.storage_ref c A S = 0 := by
  constructor
  · simp only [CacheDB.storage_mut, hacc, hslot, hcl, AccountState.isCleared, if_true]
  · simp only [CacheDB.storage_ref, hacc, hslot, hcl, AccountState.isCleared, if_true]

/-- Backing provider returning non-default data for every query; used by the
witnesses to exhibit that the cache answers without consulting it. -/
def witnessDB : DatabaseRef :=
  { basic := fun _ => { nonce := 5, balance := 1000, code := none, code_hash := 777 }
    storage := fun _ _ => 7
    code_by_hash := fun _ => Bytecode.new
    block_hash := fun _ => 99 }

/-- Store with one storage-cleared record for address 1 and no cached slots,
over a provider that would answer 7 for every slot. -/
def cacheC1 : CacheDB :=
  { accounts :=
      [(1, { info := AccountInfo.default
             account_state := AccountState.EVMStorageCleared
             storage := [] })]
    contracts := []
    logs := []
    block_hashes := []
    db := witnessDB }

theorem storage_cleared_miss_returns_zero_witness :
    CacheDB.storage_mut cacheC1 1 2 = (0, cacheC1) ∧ CacheDB.storage_ref cacheC1 1 2 = 0 :=
  storage_cleared_miss_returns_zero cacheC1 1 2
    { info := AccountInfo.default
      account_state := AccountState.EVMStorageCleared
      storage := [] }
    rfl rfl rfl

/-- C2: after `commit({A: delta})` with `delta.is_destroyed`, A's record has
cleared storage, state `EVMStorageCleared` and default (zeroed) account info,
and code registration is skipped (the contracts map is unchanged); every
subsequent `basic`/`storage` query for A — mutable or read-only — returns the
default account resp. zero, for an arbitrary store `c` and hence regardless of
what the backing provider would return for A. -/
theorem commit_destroyed_resets_account (keccak : List Nat → Nat) (keccakEmpty : Nat)
    (c : CacheDB) (A : Nat) (delta : Account) (S : Nat)
    (hdes : delta.is_destroyed = true) :
    alistLookup (CacheDB.commit keccak keccakEmpty c [(A, delta)]).accounts A =
      some { info := AccountInfo.default
             account_state := AccountState.EVMStorageCleared
             storage := [] }
    ∧ (CacheDB.commit keccak keccakEmpty c [(A, delta)]).contracts = c.contracts
    ∧ CacheDB.basic_mut (CacheDB.commit keccak keccakEmpty c [(A, delta)]) A =
        (AccountInfo.default, CacheDB.commit keccak keccakEmpty c [(A, delta)])
    ∧ CacheDB.basic_ref (CacheDB.commit keccak keccakEmpty c [(A, delta)]) A =
        AccountInfo.default
    ∧ CacheDB.storage_mut (CacheDB.commit keccak keccakEmpty c [(A, delta)]) A S =
        (0, CacheDB.commit keccak keccakEmpty c [(A, delta)])
    ∧ CacheDB.storage_ref (CacheDB.commit keccak keccakEmpty c [(A, delta)]) A S = 0 := by
  have hc : CacheDB.commit keccak keccakEmpty c [(A, delta)] =
      { c with
        accounts :=
          alistInsert c.accounts A
            { info := AccountInfo.default
              account_state := AccountState.EVMStorageCleared
              storage := [] } } := by
    simp only [CacheDB.commit, List.foldl, hdes, if_true]
  have hlook :
      alistLookup (CacheDB.commit keccak keccakEmpty c [(A, delta)]).accounts A =
        some { info := AccountInfo.default
               account_state := AccountState.EVMStorageCleared
               storage := [] } := by
    rw [hc]
    exact alistLookup_insert_self c.accounts A _
  refine ⟨hlook, by rw [hc], ?_, ?_, ?_, ?_⟩
  · simp only [CacheDB.basic_mut, hlook]
  · simp only [CacheDB.basic_ref, hlook]
  · simp only [CacheDB.storage_mut, hlook, alistLookup, AccountState.isCleared, if_true]
  · simp only [CacheDB.storage_ref, hlook, alistLookup, AccountState.isCleared, if_true]

/-- Store with no record for address 1, over the non-default provider. -/
def cacheC2 : CacheDB :=
  { accounts := []
    contracts := [(42, Bytecode.new)]
    logs := []
    block_hashes := []
    db := witnessDB }

/-- Destroyed-account delta carrying (ignored) non-default info and storage. -/
def deltaC2 : Account :=
  { info := { nonce := 5, balance := 9, code := none, code_hash := 3 }
    storage := [(2, { present_value := 11 })]
    storage_cleared := false
    is_destroyed := true }

theorem commit_destroyed_resets_account_witness :
    alistLookup (CacheDB.commit (fun _ => 0) 0 cacheC2 [(1, deltaC2)]).accounts 1 =
      some { info := AccountInfo.default
             account_state := AccountState.EVMStorageCleared
             storage := [] }
    ∧ (CacheDB.commit (fun _ => 0) 0 cacheC2 [(1, deltaC2)]).contracts = cacheC2.contracts
    ∧ CacheDB.basic_mut (CacheDB.commit (fun _ => 0) 0 cacheC2 [(1, deltaC2)]) 1 =
        (AccountInfo.default, CacheDB.commit (fun _ => 0) 0 cacheC2 [(1, deltaC2)])
    ∧ CacheDB.basic_ref (CacheDB.commit (fun _ => 0) 0 cacheC2 [(1, deltaC2)]) 1 =
        AccountInfo.default
    ∧ CacheDB.storage_mut (CacheDB.commit (fun _ => 0) 0 cacheC2 [(1, deltaC2)]) 1 9 =
        (0, CacheDB.commit (fun _ => 0) 0 cacheC2 [(1, deltaC2)])
    ∧ CacheDB.storage_ref (CacheDB.commit (fun _ => 0) 0 cacheC2 [(1, deltaC2)]) 1 9 = 0 :=
  commit_destroyed_resets_account (fun _ => 0) 0 cacheC2 1 deltaC2 9 rfl

/-- C8: after `replace_account_storage(A, {S1: V1})` on a store that
previously held slot S0 = V0 for A, the record's state is `EVMStorageCleared`
and its storage map is wholesale-replaced, so `storage(A, S0)` yields 0 and
`storage(A, S1)` yields V1 in both query variants: the old slot is
unreachable, not merely overridden. -/
theorem replace_storage_clears_old_slots (c : CacheDB) (A S0 V0 S1 V1 : Nat)
    (acc : DbAccount)
    (hacc : alistLookup c.accounts A = some acc)
    (hold : alistLookup acc.storage S0 = some V0)
    (hne : S0 ≠ S1) :
    alistLookup (CacheDB.replace_account_storage c A [(S1, V1)]).accounts A =
      some { acc with
             account_state := AccountState.EVMStorageCleared
             storage := [(S1, V1)] }
    ∧ CacheDB.storage_mut (CacheDB.replace_account_storage c A [(S1, V1)]) A S0 =
        (0, CacheDB.replace_account_storage c A [(S1, V1)])
    ∧ CacheDB.storage_mut (CacheDB.replace_account_storage c A [(S1, V1)]) A S1 =
        (V1, CacheDB.replace_account_storage c A [(S1, V1)])
    ∧ CacheDB.storage_ref (CacheDB.replace_account_storage c A [(S1, V1)]) A S0 = 0
    ∧ CacheDB.storage_ref (CacheDB.replace_account_storage c A [(S1, V1)]) A S1 = V1 := by
  have hlook :
      alistLookup (CacheDB.replace_account_storage c A [(S1, V1)]).accounts A =
        some { acc with
               account_state := AccountState.EVMStorageCleared
               storage := [(S1, V1)] } := by
    simp only [CacheDB.replace_account_storage, hacc, Option.getD]
    exact alistLookup_insert_self c.accounts A _
  have hS0 : alistLookup [(S1, V1)] S0 = none := by
    simp only [alistLookup]
    rw [if_neg (fun h => hne h.symm)]
  have hS1 : alistLookup [(S1, V1)] S1 = some V1 := by
    simp [alistLookup]
  refine ⟨hlook, ?_, ?_, ?_, ?_⟩
  · simp only [CacheDB.storage_mut, hlook, hS0, AccountState.isCleared, if_true]
  · simp only [CacheDB.storage_mut, hlook, hS1]
  · simp only [CacheDB.storage_ref, hlook, hS0, AccountState.isCleared, if_true]
  · simp only [CacheDB.storage_ref, hlook, hS1]

/-- Store with one record for address 1 caching slot 3 = 5. -/
def cacheC8 : CacheDB :=
  { accounts :=
      [(1, { info := AccountInfo.default
             account_state := AccountState.EVMTouched
             storage := [(3, 5)] })]
    contracts := []
    logs := []
    block_hashes := []
    db := witnessDB }

theorem replace_storage_clears_old_slots_witness :
    alistLookup (CacheDB.replace_account_storage cacheC8 1 [(4, 6)]).accounts 1 =
      some { info := AccountInfo.default
             account_state := AccountState.EVMStorageCleared
             storage := [(4, 6)] }
    ∧ CacheDB.storage_mut (CacheDB.replace_account_storage cacheC8 1 [(4, 6)]) 1 3 =
        (0, CacheDB.replace_account_storage cacheC8 1 [(4, 6)])
    ∧ CacheDB.storage_mut (CacheDB.replace_account_storage cacheC8 1 [(4, 6)]) 1 4 =
        (6, CacheDB.replace_account_storage cacheC8 1 [(4, 6)])
    ∧ CacheDB.storage_ref (CacheDB.replace_account_storage cacheC8 1 [(4, 6)]) 1 3 = 0
    ∧ CacheDB.storage_ref (CacheDB.replace_account_storage cacheC8 1 [(4, 6)]) 1 4 = 6 :=
  replace_storage_clears_old_slots cacheC8 1 3 5 4 6
    { info := AccountInfo.default
      account_state := AccountState.EVMTouched
      storage := [(3, 5)] }
    rfl rfl (by decide)

theorem take_length_append {α : Type} (l m : List α) : (l ++ m).take l.length = l := by
  induction l with
  | nil => rfl
  | cons a rest ih => simp [List.take, ih]

/-- C7: for every byte sequence (including the empty one), `hash` is invariant
under padding — `new_raw(bs).to_checked().hash() = new_raw(bs).hash()` — since
the hash covers exactly the original (unpadded) bytes; and a zero-length code
blob hashes to the canonical empty-code constant on both construction paths.
Stated for an arbitrary hash function and empty-hash constant. -/
theorem hash_invariant_under_padding (keccak : List Nat → Nat) (keccakEmpty : Nat)
    (bs : List Nat) :
    Bytecode.hash keccak keccakEmpty (Bytecode.to_checked (Bytecode.new_raw bs)) =
      Bytecode.hash keccak keccakEmpty (Bytecode.new_raw bs)
    ∧ Bytecode.hash keccak keccakEmpty (Bytecode.new_raw []) = keccakEmpty
    ∧ Bytecode.hash keccak keccakEmpty (Bytecode.to_checked (Bytecode.new_raw [])) =
        keccakEmpty := by
  have hch : Bytecode.to_checked (Bytecode.new_raw bs) =
      { bytecode := bs ++ List.replicate 33 0
        state := BytecodeState.Checked bs.length } := rfl
  have htake :
      Bytecode.hash keccak keccakEmpty (Bytecode.to_checked (Bytecode.new_raw bs)) =
        Bytecode.hash keccak keccakEmpty (Bytecode.new_raw bs) := by
    rw [hch]
    simp only [Bytecode.hash, Bytecode.new_raw, take_length_append]
  exact ⟨htake, rfl, rfl⟩

/-- C9: for every Bytecode in the `Analysed` state, `lock` succeeds without
recomputation — the locked view carries the same buffer, original length and
jump-table value — and `unlock` rebuilds exactly the original Bytecode, in the
`Analysed` state (`lock`/`unlock` is a round trip). -/
theorem lock_unlock_round_trip (table : Nat → OpInfo) (b : Bytecode) (len : Nat)
    (jt : ValidJumpAddress) (h : b.state = BytecodeState.Analysed len jt) :
    Bytecode.lock table b =
      some { bytecode := b.bytecode, len := len, jumptable := jt }
    ∧ BytecodeLocked.unlock { bytecode := b.bytecode, len := len, jumptable := jt } = b := by
  obtain ⟨bc, st⟩ := b
  simp only at h
  subst h
  exact ⟨rfl, rfl⟩

theorem lock_unlock_round_trip_witness :
    Bytecode.lock spec_opcode_gas Bytecode.new =
      some { bytecode := Bytecode.new.bytecode, len := 0
             jumptable := ValidJumpAddress.new [] 0 }
    ∧ BytecodeLocked.unlock
        { bytecode := Bytecode.new.bytecode, len := 0
          jumptable := ValidJumpAddress.new [] 0 } = Bytecode.new :=
  lock_unlock_round_trip spec_opcode_gas Bytecode.new 0 (ValidJumpAddress.new [] 0) rfl

/-- C10: the canonical no-code value `Bytecode::new` (also the `Default`
value) is built directly in the `Analysed` state with semantic length 0 and an
empty annotation array over a one-byte buffer holding a single STOP (0x00) —
so without the 33-byte padding `to_checked` produces — and still `hash`
returns the canonical empty-code constant and `is_empty` is true, for any
hash function. -/
theorem bytecode_new_canonical_empty (keccak : List Nat → Nat) (keccakEmpty : Nat) :
    Bytecode.new.bytecode = [0]
    ∧ Bytecode.new.state = BytecodeState.Analysed 0 (ValidJumpAddress.new [] 0)
    ∧ Bytecode.default = Bytecode.new
    ∧ Bytecode.hash keccak keccakEmpty Bytecode.new = keccakEmpty
    ∧ Bytecode.is_empty Bytecode.new = true :=
  ⟨rfl, rfl, rfl, rfl, rfl⟩

theorem loop1_frame (t : Nat → OpInfo) (c : List Nat) :
    ∀ fuel s, (loop1 t c fuel s).gas_in_block = s.gas_in_block
      ∧ (loop1 t c fuel s).jumps.length = s.jumps.length
      ∧ ∀ j, (getAD (loop1 t c fuel s).jumps j).gas_block = (getAD s.jumps j).gas_block := by
  intro fuel
  induction fuel with
  | zero => exact fun s => ⟨rfl, rfl, fun j => rfl⟩
  | succ f ih =>
    intro s
    simp only [loop1]
    by_cases h : s.index < c.length
    · by_cases hbe : (t (getByte c s.index)).is_gas_block_end = true
      · by_cases hj : (t (getByte c s.index)).is_jump = true
        · simp [h, hbe, hj, length_modifyAt, gasBlock_modifyAt_jump]
        · simp [h, hbe, hj]
      · simp only [h, if_true, hbe, if_false]
        simp [h, hbe]
        exact ih _
    · simp [h]

theorem loop2_length (t : Nat → OpInfo) (c : List Nat) :
    ∀ fuel s, (loop2 t c fuel s).jumps.length = s.jumps.length := by
  intro fuel
  induction fuel with
  | zero => exact fun s => rfl
  | succ f ih =>
    intro s
    simp only [loop2]
    by_cases h : s.index < c.length
    · by_cases hbe : (t (getByte c s.index)).is_gas_block_end = true
      · by_cases hj : (t (getByte c s.index)).is_jump = true
        · simp [h, hbe, hj, ih _, length_modifyAt]
        · simp [h, hbe, hj, ih _, length_modifyAt]
      · simp [h, hbe, ih _]
    · simp [h]

theorem analysis_length (t : Nat → OpInfo) (code : List Nat) :
    (analyze t code).analysis.length = code.length := by
  simp only [analyze, analyzeFinal]
  split
  · rw [length_modifyAt, loop2_length, (loop1_frame t code _ _).2.1]
    simp [initState]
  · rw [loop2_length, (loop1_frame t code _ _).2.1]
    simp [initState]

/-- C4 counterexample: on the empty raw bytecode (original length 0), the
annotation array produced by `to_analysed` has length 33 — the padded buffer
length — not the original length 0 the claim asserts. -/
theorem analysis_table_length_counterexample :
    Bytecode.analysisLen (Bytecode.to_analysed spec_opcode_gas (Bytecode.new_raw [])) ≠
      some 0
    ∧ Bytecode.analysisLen (Bytecode.to_analysed spec_opcode_gas (Bytecode.new_raw [])) =
        some 33 := by
  constructor
  · intro h
    exact absurd (Option.some.inj h) (by decide)
  · decide

/-- C4 amended: for every raw bytecode of original length `len`, the
annotation array produced by the analysis pass has exactly one entry per byte
offset of the padded buffer, i.e. length `len + 33`, not `len`: `analyze` is
invoked on the padded buffer and allocates one annotation per padded byte. -/
theorem analysis_table_has_padded_length (table : Nat → OpInfo) (bs : List Nat) :
    Bytecode.analysisLen (Bytecode.to_analysed table (Bytecode.new_raw bs)) =
      some (bs.length + 33) := by
  show some ((analyze table (bs ++ List.replicate 33 0)).analysis.length) = _
  rw [analysis_length]
  simp

theorem Reach.le {t : Nat → OpInfo} {c : List Nat} {i j : Nat} (h : Reach t c i j) :
    i ≤ j := by
  induction h with
  | refl => exact Nat.le_refl _
  | next _ ih => exact Nat.le_trans ih (Nat.le_add_right _ _)

theorem Reach.trans {t : Nat → OpInfo} {c : List Nat} {i j k : Nat}
    (h1 : Reach t c i j) (h2 : Reach t c j k) : Reach t c i k := by
  induction h2 with
  | refl => exact h1
  | next _ ih => exact Reach.next ih

theorem Reach_inv {t : Nat → OpInfo} {c : List Nat} {k j : Nat} (h : Reach t c k j) :
    j = k ∨ Reach t c (k + advanceOf t c k) j := by
  induction h with
  | refl => exact Or.inl rfl
  | next _ ih =>
    rcases ih with rfl | h2
    · exact Or.inr (Reach.refl _)
    · exact Or.inr (Reach.next h2)

theorem Reach_total {t : Nat → OpInfo} {c : List Nat} {i j k : Nat}
    (h1 : Reach t c i j) (h2 : Reach t c i k) :
    Reach t c j k ∨ Reach t c k j := by
  induction h2 with
  | refl => exact Or.inr h1
  | next h ih =>
    rcases ih with hjk | hkj
    · exact Or.inl (Reach.next hjk)
    · rcases Reach_inv hkj with rfl | h3
      · exact Or.inl (Reach.next (Reach.refl _))
      · exact Or.inr h3

theorem not_reach_inside_operand {t : Nat → OpInfo} {c : List Nat} {p off : Nat}
    (hp : Reach t c 0 p) (hlt : p < off) (hlt2 : off < p + advanceOf t c p)
    (hoff : Reach t c 0 off) : False := by
  rcases Reach_total hp hoff with h | h
  · rcases Reach_inv h with rfl | h2
    · exact Nat.lt_irrefl off hlt
    · exact Nat.not_le_of_lt hlt2 (Reach.le h2)
  · exact Nat.not_le_of_lt hlt (Reach.le h)

theorem loop1_flags (t : Nat → OpInfo) (c : List Nat)
    (hpb : ∀ op, (t op).is_gas_block_end = true → (t op).is_push = false) :
    ∀ fuel s off, isJ (loop1 t c fuel s).jumps off = true →
      isJ s.jumps off = true ∨ Reach t c s.index off := by
  intro fuel
  induction fuel with
  | zero => exact fun s off h => Or.inl h
  | succ f ih =>
    intro s off h
    simp only [loop1] at h
    by_cases hlt : s.index < c.length
    · rw [if_pos hlt] at h
      by_cases hbe : (t (getByte c s.index)).is_gas_block_end = true
      · rw [if_pos hbe] at h
        have hps : (t (getByte c s.index)).is_push = false := hpb _ hbe
        by_cases hj : (t (getByte c s.index)).is_jump = true
        · simp only [hps, hj, if_true, Bool.false_eq_true, if_false,
            Nat.add_sub_cancel] at h
          rcases isJ_modifyAt_jump _ _ _ h with rfl | h2
          · exact Or.inr (Reach.refl _)
          · exact Or.inl h2
        · simp only [hps, hj, Bool.false_eq_true, if_false] at h
          exact Or.inl h
      · rw [if_neg hbe] at h
        rcases ih _ off h with h2 | h2
        · exact Or.inl h2
        · exact Or.inr (Reach.trans (Reach.next (Reach.refl s.index)) h2)
    · rw [if_neg hlt] at h
      exact Or.inl h

theorem loop2_flags (t : Nat → OpInfo) (c : List Nat)
    (hpb : ∀ op, (t op).is_gas_block_end = true → (t op).is_push = false) :
    ∀ fuel s off, isJ (loop2 t c fuel s).jumps off = true →
      isJ s.jumps off = true ∨ Reach t c s.index off := by
  intro fuel
  induction fuel with
  | zero => exact fun s off h => Or.inl h
  | succ f ih =>
    intro s off h
    simp only [loop2] at h
    by_cases hlt : s.index < c.length
    · rw [if_pos hlt] at h
      by_cases hbe : (t (getByte c s.index)).is_gas_block_end = true
      · rw [if_pos hbe] at h
        have hps : (t (getByte c s.index)).is_push = false := hpb _ hbe
        rcases ih _ off h with h2 | h2
        · simp only [isJ_modifyAt_gb] at h2
          by_cases hj : (t (getByte c s.index)).is_jump = true
          · simp only [hj, if_true] at h2
            rcases isJ_modifyAt_jump _ _ _ h2 with rfl | h3
            · exact Or.inr (Reach.refl _)
            · exact Or.inl h3
          · simp only [hj, Bool.false_eq_true, if_false] at h2
            exact Or.inl h2
        · refine Or.inr (Reach.trans (Reach.next (Reach.refl s.index)) ?_)
          have hadv : advanceOf t c s.index = 1 := by
            unfold advanceOf
            rw [hps]
            simp
          rw [hadv]
          exact h2
      · rw [if_neg hbe] at h
        rcases ih _ off h with h2 | h2
        · exact Or.inl h2
        · exact Or.inr (Reach.trans (Reach.next (Reach.refl s.index)) h2)
    · rw [if_neg hlt] at h
      exact Or.inl h

theorem loop1_reach (t : Nat → OpInfo) (c : List Nat) :
    ∀ fuel s, Reach t c s.index (loop1 t c fuel s).index := by
  intro fuel
  induction fuel with
  | zero => exact fun s => Reach.refl _
  | succ f ih =>
    intro s
    simp only [loop1]
    by_cases hlt : s.index < c.length
    · rw [if_pos hlt]
      by_cases hbe : (t (getByte c s.index)).is_gas_block_end = true
      · rw [if_pos hbe]
        exact Reach.next (Reach.refl s.index)
      · rw [if_neg hbe]
        refine Reach.trans (Reach.next (Reach.refl s.index)) ?_
        exact ih { s with
          index := s.index +
            if (t (getByte c s.index)).is_push = true then pushAdvance (getByte c s.index) else 1
          first_gas_block := (s.first_gas_block + (t (getByte c s.index)).gas) % 4294967296 }
    · rw [if_neg hlt]
      exact Reach.refl _

theorem loop2_reach (t : Nat → OpInfo) (c : List Nat)
    (hpb : ∀ op, (t op).is_gas_block_end = true → (t op).is_push = false) :
    ∀ fuel s, Reach t c s.index (loop2 t c fuel s).index := by
  intro fuel
  induction fuel with
  | zero => exact fun s => Reach.refl _
  | succ f ih =>
    intro s
    simp only [loop2]
    by_cases hlt : s.index < c.length
    · rw [if_pos hlt]
      by_cases hbe : (t (getByte c s.index)).is_gas_block_end = true
      · rw [if_pos hbe]
        have hadv : advanceOf t c s.index = 1 := by
          unfold advanceOf
          rw [hpb _ hbe]
          simp
        have h1 : Reach t c s.index (s.index + 1) := hadv ▸ Reach.next (Reach.refl s.index)
        refine Reach.trans h1 ?_
        exact ih
          { index := s.index + 1
            first_gas_block := s.first_gas_block
            gas_in_block := 0
            block_start := s.index
            jumps :=
              modifyAt
                (if (t (getByte c s.index)).is_jump = true then
                  modifyAt s.jumps s.index AnalysisData.set_is_jump
                 else s.jumps)
                s.block_start
                (AnalysisData.set_gas_block ((s.gas_in_block + (t (getByte c s.index)).gas) % 4294967296)) }
      · rw [if_neg hbe]
        refine Reach.trans (Reach.next (Reach.refl s.index)) ?_
        exact ih { s with
          gas_in_block := (s.gas_in_block + (t (getByte c s.index)).gas) % 4294967296
          index := s.index +
            if (t (getByte c s.index)).is_push = true then pushAdvance (getByte c s.index) else 1 }
    · rw [if_neg hlt]
      exact Reach.refl _

/-- C3: for every code byte sequence, a byte offset lying strictly inside the
operand bytes of a push opcode the scan visits is never flagged as a valid
jump destination in the table produced by the analysis pass (for any opcode
table in which gas-block-end opcodes are not pushes, as in every rule set);
and on the scenario code `[PUSH1, 0x5B, JUMPDEST, STOP]` the pipeline flags
exactly the real JUMPDEST at offset 2 — not the 0x5B push-operand byte at
offset 1. -/
theorem push_operand_never_flagged (table : Nat → OpInfo)
    (hpb : ∀ op, (table op).is_gas_block_end = true → (table op).is_push = false)
    (code : List Nat) (off : Nat) (hoff : InPushOperand table code off) :
    isJ (analyze table code).analysis off = false
    ∧ Bytecode.jtFlags (Bytecode.to_analysed spec_opcode_gas (Bytecode.new_raw [96, 91, 91, 0]))
        = List.replicate 2 false ++ true :: List.replicate 34 false := by
  constructor
  · cases hb : isJ (analyze table code).analysis off
    · rfl
    · exfalso
      have hjf : isJ (analyzeFinal table code).jumps off = true := by
        have heq : isJ (analyze table code).analysis off =
            isJ (analyzeFinal table code).jumps off := by
          simp only [analyze]
          split
          · exact isJ_modifyAt_gb _ _ _ _
          · rfl
        rw [← heq]
        exact hb
      have hreach : Reach table code 0 off := by
        rcases loop2_flags table code hpb _ _ off hjf with h2 | h2
        · rcases loop1_flags table code hpb _ _ off h2 with h3 | h3
          · rw [show (initState code).jumps = List.replicate code.length AnalysisData.none
              from rfl, isJ_replicate] at h3
            exact absurd h3 Bool.false_ne_true
          · exact h3
        · exact Reach.trans (loop1_reach table code _ (initState code)) h2
      obtain ⟨p, hp, _, _, hlt, hlt2⟩ := hoff
      exact not_reach_inside_operand hp hlt hlt2 hreach
  · decide

theorem push_operand_never_flagged_witness :
    isJ (analyze spec_opcode_gas [96, 91, 91, 0]).analysis 1 = false
    ∧ Bytecode.jtFlags (Bytecode.to_analysed spec_opcode_gas (Bytecode.new_raw [96, 91, 91, 0]))
        = List.replicate 2 false ++ true :: List.replicate 34 false :=
  push_operand_never_flagged spec_opcode_gas spec_opcode_gas_push_not_end
    [96, 91, 91, 0] 1
    ⟨0, Reach.refl 0, by decide, by decide, by decide, by decide⟩

theorem gasWalk_congr (t : Nat → OpInfo) (c : List Nat) :
    ∀ f1 f2 i, c.length ≤ f1 + i → c.length ≤ f2 + i →
      gasWalk t c f1 i = gasWalk t c f2 i := by
  intro f1
  induction f1 with
  | zero =>
    intro f2 i h1 h2
    cases f2 with
    | zero => rfl
    | succ g =>
      simp only [gasWalk]
      rw [if_neg (by omega)]
  | succ f ih =>
    intro f2 i h1 h2
    cases f2 with
    | zero =>
      simp only [gasWalk]
      rw [if_neg (by omega)]
    | succ g =>
      simp only [gasWalk]
      by_cases hlt : i < c.length
      · rw [if_pos hlt, if_pos hlt]
        congr 1
        have := advanceOf_pos t c i
        exact ih g (i + advanceOf t c i) (by omega) (by omega)
      · rw [if_neg hlt, if_neg hlt]

theorem walkG_step (t : Nat → OpInfo) (c : List Nat) (i : Nat) (h : i < c.length) :
    walkG t c i = (t (getByte c i)).gas + walkG t c (i + advanceOf t c i) := by
  unfold walkG
  have h1 : c.length - i = (c.length - i - 1) + 1 := by omega
  rw [h1]
  simp only [gasWalk]
  rw [if_pos h]
  congr 1
  have := advanceOf_pos t c i
  exact gasWalk_congr t c _ _ _ (by omega) (by omega)

theorem walkG_zero (t : Nat → OpInfo) (c : List Nat) (i : Nat) (h : c.length ≤ i) :
    walkG t c i = 0 := by
  unfold walkG
  rw [Nat.sub_eq_zero_of_le h]
  rfl

theorem loop2_noop (t : Nat → OpInfo) (c : List Nat) :
    ∀ fuel s, c.length ≤ s.index → loop2 t c fuel s = s := by
  intro fuel
  cases fuel with
  | zero => exact fun s _ => rfl
  | succ f =>
    intro s h
    simp only [loop2]
    rw [if_neg (by omega)]

theorem gasBlock_replicate (n j : Nat) :
    (getAD (List.replicate n AnalysisData.none) j).gas_block = 0 := by
  induction n generalizing j with
  | zero => rfl
  | succ m ih =>
    cases j with
    | zero => rfl
    | succ j' => simpa [List.replicate, getAD] using ih j'

theorem sumGB_eq_zero (l : List AnalysisData)
    (h : ∀ j, (getAD l j).gas_block = 0) : sumGB l = 0 := by
  induction l with
  | nil => rfl
  | cons a rest ih =>
    have h0 := h 0
    simp only [getAD] at h0
    simp only [sumGB, h0, Nat.zero_add]
    exact ih (fun j => h (j + 1))

theorem loop1_sum (t : Nat → OpInfo) (c : List Nat) :
    ∀ fuel s,
      c.length ≤ fuel + s.index →
      s.first_gas_block + walkG t c s.index < 4294967296 →
      (loop1 t c fuel s).first_gas_block + walkG t c (loop1 t c fuel s).index
        = s.first_gas_block + walkG t c s.index := by
  intro fuel
  induction fuel with
  | zero => exact fun s hf hov => rfl
  | succ f ih =>
    intro s hf hov
    simp only [loop1]
    by_cases hlt : s.index < c.length
    · rw [if_pos hlt]
      have hstep := walkG_step t c s.index hlt
      have hadv := advanceOf_pos t c s.index
      have hmod : (s.first_gas_block + (t (getByte c s.index)).gas) % 4294967296
          = s.first_gas_block + (t (getByte c s.index)).gas := Nat.mod_eq_of_lt (by omega)
      have hifadv :
          (if (t (getByte c s.index)).is_push = true then pushAdvance (getByte c s.index) else 1)
            = advanceOf t c s.index := rfl
      by_cases hbe : (t (getByte c s.index)).is_gas_block_end = true
      · rw [if_pos hbe]
        show (s.first_gas_block + (t (getByte c s.index)).gas) % 4294967296
            + walkG t c (s.index +
                (if (t (getByte c s.index)).is_push = true then pushAdvance (getByte c s.index)
                 else 1))
          = s.first_gas_block + walkG t c s.index
        rw [hmod, hifadv]
        omega
      · rw [if_neg hbe]
        rw [ih { s with
            index := s.index +
              (if (t (getByte c s.index)).is_push = true then pushAdvance (getByte c s.index)
               else 1)
            first_gas_block :=
              (s.first_gas_block + (t (getByte c s.index)).gas) % 4294967296 }
          (by simp only [hifadv]; omega)
          (by simp only [hifadv, hmod]; omega)]
        simp only [hifadv, hmod]
        omega
    · rw [if_neg hlt]

theorem loop1_post (t : Nat → OpInfo) (c : List Nat)
    (hpb : ∀ op, (t op).is_gas_block_end = true → (t op).is_push = false) :
    ∀ fuel s,
      c.length ≤ fuel + s.index →
      ((loop1 t c fuel s).block_start = s.block_start ∧ c.length ≤ (loop1 t c fuel s).index)
      ∨ ((loop1 t c fuel s).block_start + 1 = (loop1 t c fuel s).index
          ∧ (loop1 t c fuel s).block_start < c.length) := by
  intro fuel
  induction fuel with
  | zero =>
    intro s hf
    refine Or.inl ⟨rfl, ?_⟩
    simp only [loop1]
    omega
  | succ f ih =>
    intro s hf
    simp only [loop1]
    by_cases hlt : s.index < c.length
    · rw [if_pos hlt]
      by_cases hbe : (t (getByte c s.index)).is_gas_block_end = true
      · rw [if_pos hbe]
        right
        have hps : (t (getByte c s.index)).is_push = false := hpb _ hbe
        constructor
        · show s.index +
              (if (t (getByte c s.index)).is_push = true then pushAdvance (getByte c s.index)
               else 1) - 1 + 1
            = s.index +
              (if (t (getByte c s.index)).is_push = true then pushAdvance (getByte c s.index)
               else 1)
          rw [hps]
          simp
        · show s.index +
              (if (t (getByte c s.index)).is_push = true then pushAdvance (getByte c s.index)
               else 1) - 1 < c.length
          rw [hps]
          simp
          omega
      · rw [if_neg hbe]
        rcases ih { s with
            index := s.index +
              (if (t (getByte c s.index)).is_push = true then pushAdvance (getByte c s.index)
               else 1)
            first_gas_block :=
              (s.first_gas_block + (t (getByte c s.index)).gas) % 4294967296 }
          (by
            have : 1 ≤ (if (t (getByte c s.index)).is_push = true
                then pushAdvance (getByte c s.index) else 1) := by
              split
              · unfold pushAdvance; omega
              · omega
            simp only []
            omega) with h | h
        · exact Or.inl ⟨h.1, h.2⟩
        · exact Or.inr h
    · rw [if_neg hlt]
      exact Or.inl ⟨rfl, by omega⟩

theorem loop2_sum (t : Nat → OpInfo) (c : List Nat)
    (hpb : ∀ op, (t op).is_gas_block_end = true → (t op).is_push = false) :
    ∀ fuel s,
      c.length ≤ fuel + s.index →
      s.block_start < s.index →
      (∀ j, s.block_start ≤ j → (getAD s.jumps j).gas_block = 0) →
      s.jumps.length = c.length →
      s.first_gas_block + sumGB s.jumps + s.gas_in_block + walkG t c s.index < 4294967296 →
      (loop2 t c fuel s).first_gas_block + sumGB (loop2 t c fuel s).jumps
          + (loop2 t c fuel s).gas_in_block
        = s.first_gas_block + sumGB s.jumps + s.gas_in_block + walkG t c s.index := by
  intro fuel
  induction fuel with
  | zero =>
    intro s hf hbi hgb hlen hov
    have hw := walkG_zero t c s.index (by omega)
    simp only [loop2, hw]
    omega
  | succ f ih =>
    intro s hf hbi hgb hlen hov
    by_cases hlt : s.index < c.length
    · have hstep0 := walkG_step t c s.index hlt
      have hadv := advanceOf_pos t c s.index
      have hgas : (t (getByte c s.index)).gas ≤ walkG t c s.index := by omega
      have hmod : (s.gas_in_block + (t (getByte c s.index)).gas) % 4294967296
          = s.gas_in_block + (t (getByte c s.index)).gas := Nat.mod_eq_of_lt (by omega)
      simp only [loop2]
      rw [if_pos hlt]
      by_cases hbe : (t (getByte c s.index)).is_gas_block_end = true
      · rw [if_pos hbe, hmod]
        have hps : (t (getByte c s.index)).is_push = false := hpb _ hbe
        have hadv1 : advanceOf t c s.index = 1 := by
          unfold advanceOf
          rw [hps]
          simp
        have hstep : walkG t c s.index
            = (t (getByte c s.index)).gas + walkG t c (s.index + 1) := by
          rw [hstep0, hadv1]
        by_cases hj : (t (getByte c s.index)).is_jump = true
        · rw [if_pos hj]
          have hsum2 : sumGB (modifyAt (modifyAt s.jumps s.index AnalysisData.set_is_jump)
                s.block_start
                (AnalysisData.set_gas_block (s.gas_in_block + (t (getByte c s.index)).gas)))
              = sumGB s.jumps + (s.gas_in_block + (t (getByte c s.index)).gas) := by
            rw [sumGB_modifyAt_gb _ _ _
                (by rw [length_modifyAt, hlen]; omega)
                (by rw [gasBlock_modifyAt_jump]; exact hgb s.block_start (Nat.le_refl _)),
              sumGB_modifyAt_jump]
          have hgb2 : ∀ j, s.index ≤ j →
              (getAD (modifyAt (modifyAt s.jumps s.index AnalysisData.set_is_jump)
                s.block_start
                (AnalysisData.set_gas_block (s.gas_in_block + (t (getByte c s.index)).gas)))
                j).gas_block = 0 := by
            intro j hij
            rw [getAD_modifyAt_ne _ _ _ _ (by omega), gasBlock_modifyAt_jump]
            exact hgb j (by omega)
          rw [ih { index := s.index + 1
                   first_gas_block := s.first_gas_block
                   gas_in_block := 0
                   block_start := s.index
                   jumps :=
                     modifyAt (modifyAt s.jumps s.index AnalysisData.set_is_jump)
                       s.block_start
                       (AnalysisData.set_gas_block
                         (s.gas_in_block + (t (getByte c s.index)).gas)) }
              (by simp only []; omega)
              (by simp only []; omega)
              (by simp only []; exact hgb2)
              (by simp only []; rw [length_modifyAt, length_modifyAt]; exact hlen)
              (by simp only []; rw [hsum2]; omega)]
          simp only []
          rw [hsum2]
          omega
        · rw [if_neg hj]
          have hsum2 : sumGB (modifyAt s.jumps s.block_start
                (AnalysisData.set_gas_block (s.gas_in_block + (t (getByte c s.index)).gas)))
              = sumGB s.jumps + (s.gas_in_block + (t (getByte c s.index)).gas) := by
            rw [sumGB_modifyAt_gb _ _ _ (by omega)
                (hgb s.block_start (Nat.le_refl _))]
          have hgb2 : ∀ j, s.index ≤ j →
              (getAD (modifyAt s.jumps s.block_start
                (AnalysisData.set_gas_block (s.gas_in_block + (t (getByte c s.index)).gas)))
                j).gas_block = 0 := by
            intro j hij
            rw [getAD_modifyAt_ne _ _ _ _ (by omega)]
            exact hgb j (by omega)
          rw [ih { index := s.index + 1
                   first_gas_block := s.first_gas_block
                   gas_in_block := 0
                   block_start := s.index
                   jumps :=
                     modifyAt s.jumps s.block_start
                       (AnalysisData.set_gas_block
                         (s.gas_in_block + (t (getByte c s.index)).gas)) }
              (by simp only []; omega)
              (by simp only []; omega)
              (by simp only []; exact hgb2)
              (by simp only []; rw [length_modifyAt]; exact hlen)
              (by simp only []; rw [hsum2]; omega)]
          simp only []
          rw [hsum2]
          omega
      · rw [if_neg hbe, hmod,
          show (if (t (getByte c s.index)).is_push = true then pushAdvance (getByte c s.index)
              else 1)
            = advanceOf t c s.index from rfl]
        rw [ih { s with
              gas_in_block := s.gas_in_block + (t (getByte c s.index)).gas
              index := s.index + advanceOf t c s.index }
          (by simp only []; omega)
          (by simp only []; omega)
          (by simp only []; exact hgb)
          (by simp only []; exact hlen)
          (by simp only []; omega)]
        simp only []
        omega
    · have hw := walkG_zero t c s.index (by omega)
      simp only [loop2]
      rw [if_neg hlt, hw]
      omega

/-- C5: for any code whose scan ends exactly at a block boundary (final
`gas_in_block` accumulator empty, so no trailing partial block), the sum of
all per-block gas costs recorded in the analysis table plus
`first_gas_block` equals the sum of the individual per-instruction gas costs
over the entire scanned length — stated for any opcode table whose gas-block
ends are not pushes, under the assumption that the total instruction gas fits
the `u32` accumulators. -/
theorem gas_block_sums_match_instruction_costs (table : Nat → OpInfo)
    (hpb : ∀ op, (table op).is_gas_block_end = true → (table op).is_push = false)
    (code : List Nat)
    (hov : gasWalk table code code.length 0 < 4294967296)
    (hend : (analyzeFinal table code).gas_in_block = 0) :
    (analyze table code).first_gas_block + sumGB (analyze table code).analysis
      = gasWalk table code code.length 0 := by
  have hana : (analyze table code).analysis = (analyzeFinal table code).jumps := by
    simp only [analyze, hend]
    simp
  have hw0 : walkG table code 0 = gasWalk table code code.length 0 := rfl
  have hov' : walkG table code 0 < 4294967296 := by rw [hw0]; exact hov
  have hfr := loop1_frame table code code.length (initState code)
  have hgb1 : ∀ j,
      (getAD (loop1 table code code.length (initState code)).jumps j).gas_block = 0 := by
    intro j
    rw [hfr.2.2 j]
    exact gasBlock_replicate _ _
  have hlen1 : (loop1 table code code.length (initState code)).jumps.length = code.length := by
    rw [hfr.2.1]
    simp [initState]
  have hgib1 : (loop1 table code code.length (initState code)).gas_in_block = 0 := hfr.1
  have hsumj1 : sumGB (loop1 table code code.length (initState code)).jumps = 0 :=
    sumGB_eq_zero _ hgb1
  have hsum1 := loop1_sum table code code.length (initState code)
    (by show code.length ≤ code.length + 0; omega)
    (by show 0 + walkG table code 0 < 4294967296; omega)
  have hsum1' : (loop1 table code code.length (initState code)).first_gas_block
      + walkG table code (loop1 table code code.length (initState code)).index
      = walkG table code 0 := by
    rw [hsum1]
    show 0 + walkG table code 0 = walkG table code 0
    omega
  rw [hana]
  show (analyzeFinal table code).first_gas_block + sumGB (analyzeFinal table code).jumps
    = gasWalk table code code.length 0
  rcases loop1_post table code hpb code.length (initState code)
      (by show code.length ≤ code.length + 0; omega) with ⟨hbs, hidx⟩ | ⟨hbs, hbslt⟩
  · have hfin : analyzeFinal table code = loop1 table code code.length (initState code) := by
      unfold analyzeFinal
      exact loop2_noop table code code.length _ hidx
    rw [hfin, hsumj1]
    have hwz := walkG_zero table code _ hidx
    rw [← hw0]
    omega
  · have h2 := loop2_sum table code hpb code.length
      (loop1 table code code.length (initState code))
      (by omega)
      (by omega)
      (fun j _ => hgb1 j)
      hlen1
      (by rw [hsumj1, hgib1]; omega)
    rw [hsumj1, hgib1] at h2
    unfold analyzeFinal at hend ⊢
    rw [← hw0]
    omega

theorem gas_block_sums_match_instruction_costs_witness :
    (analyze spec_opcode_gas [91, 0]).first_gas_block
        + sumGB (analyze spec_opcode_gas [91, 0]).analysis
      = gasWalk spec_opcode_gas [91, 0] ([91, 0] : List Nat).length 0 :=
  gas_block_sums_match_instruction_costs spec_opcode_gas spec_opcode_gas_push_not_end
    [91, 0] (by decide) (by decide)

/-- Bounds-checked byte read (`code.get(index)`), `none` out of range. -/
def getByteC : List Nat → Nat → Option Nat
  | [], _ => Option.none
  | b :: _, 0 => some b
  | _ :: rest, i + 1 => getByteC rest i

theorem getByteC_eq (code : List Nat) (i : Nat) (h : i < code.length) :
    getByteC code i = some (getByte code i) := by
  induction code generalizing i with
  | nil => simp at h
  | cons b rest ih =>
    cases i with
    | zero => rfl
    | succ j =>
      simp only [List.length_cons, Nat.succ_lt_succ_iff] at h
      exact ih j h

/-- Bounds-checked entry update of the annotation array, `none` when the
index would be out of range (the unchecked-index error branch). -/
def modifyAtC (l : List AnalysisData) (i : Nat) (f : AnalysisData → AnalysisData) :
    Option (List AnalysisData) :=
  if i < l.length then some (modifyAt l i f) else Option.none

/-- First scan loop with every buffer access bounds-checked: the code-byte
read, the 256-entry opcode-table index, and the annotation-array write; any
out-of-range access yields `none`. -/
def loop1C (t : Nat → OpInfo) (c : List Nat) : Nat → ScanState → Option ScanState
  | 0, s => some s
  | fuel + 1, s =>
    if s.index < c.length then
      match getByteC c s.index with
      | Option.none => Option.none
      | some op =>
        if op < 256 then
          if (t op).is_gas_block_end then
            if (t op).is_jump then
              match modifyAtC s.jumps
                  (s.index + (if (t op).is_push then pushAdvance op else 1) - 1)
                  AnalysisData.set_is_jump with
              | Option.none => Option.none
              | some jumps =>
                some { s with
                  index := s.index + (if (t op).is_push then pushAdvance op else 1)
                  first_gas_block := (s.first_gas_block + (t op).gas) % 4294967296
                  block_start := s.index + (if (t op).is_push then pushAdvance op else 1) - 1
                  jumps := jumps }
            else
              some { s with
                index := s.index + (if (t op).is_push then pushAdvance op else 1)
                first_gas_block := (s.first_gas_block + (t op).gas) % 4294967296
                block_start := s.index + (if (t op).is_push then pushAdvance op else 1) - 1 }
          else
            loop1C t c fuel { s with
              index := s.index + (if (t op).is_push then pushAdvance op else 1)
              first_gas_block := (s.first_gas_block + (t op).gas) % 4294967296 }
        else Option.none
    else some s

/-- Second scan loop with every buffer access bounds-checked. -/
def loop2C (t : Nat → OpInfo) (c : List Nat) : Nat → ScanState → Option ScanState
  | 0, s => some s
  | fuel + 1, s =>
    if s.index < c.length then
      match getByteC c s.index with
      | Option.none => Option.none
      | some op =>
        if op < 256 then
          if (t op).is_gas_block_end then
            match
              (if (t op).is_jump then modifyAtC s.jumps s.index AnalysisData.set_is_jump
               else some s.jumps) with
            | Option.none => Option.none
            | some jumps1 =>
              match modifyAtC jumps1 s.block_start
                  (AnalysisData.set_gas_block ((s.gas_in_block + (t op).gas) % 4294967296)) with
              | Option.none => Option.none
              | some jumps2 =>
                loop2C t c fuel
                  { index := s.index + 1
                    first_gas_block := s.first_gas_block
                    gas_in_block := 0
                    block_start := s.index
                    jumps := jumps2 }
          else
            loop2C t c fuel { s with
              gas_in_block := (s.gas_in_block + (t op).gas) % 4294967296
              index := s.index + (if (t op).is_push then pushAdvance op else 1) }
        else Option.none
    else some s

/-- Analysis pass with every buffer access bounds-checked; `none` exactly when
some unchecked access of the original would have been out of bounds. -/
def analyzeChecked (t : Nat → OpInfo) (c : List Nat) : Option ValidJumpAddress :=
  match loop1C t c c.length (initState c) with
  | Option.none => Option.none
  | some s1 =>
    match loop2C t c c.length s1 with
    | Option.none => Option.none
    | some s2 =>
      if s2.gas_in_block ≠ 0 then
        match modifyAtC s2.jumps s2.block_start
            (AnalysisData.set_gas_block s2.gas_in_block) with
        | Option.none => Option.none
        | some jumps => some { first_gas_block := s2.first_gas_block, analysis := jumps }
      else some { first_gas_block := s2.first_gas_block, analysis := s2.jumps }

theorem loop1C_eq (t : Nat → OpInfo) (c : List Nat)
    (hpb : ∀ op, (t op).is_gas_block_end = true → (t op).is_push = false)
    (hb : ∀ b ∈ c, b < 256) :
    ∀ fuel s, s.jumps.length = c.length →
      loop1C t c fuel s = some (loop1 t c fuel s) := by
  intro fuel
  induction fuel with
  | zero => exact fun s _ => rfl
  | succ f ih =>
    intro s hlen
    simp only [loop1C, loop1]
    by_cases hlt : s.index < c.length
    · rw [if_pos hlt, if_pos hlt, getByteC_eq c s.index hlt]
      simp only []
      rw [if_pos (hb _ (getByte_mem c s.index hlt))]
      by_cases hbe : (t (getByte c s.index)).is_gas_block_end = true
      · rw [if_pos hbe, if_pos hbe]
        have hps : (t (getByte c s.index)).is_push = false := hpb _ hbe
        by_cases hj : (t (getByte c s.index)).is_jump = true
        · rw [if_pos hj, if_pos hj]
          rw [show modifyAtC s.jumps
              (s.index + (if (t (getByte c s.index)).is_push = true
                then pushAdvance (getByte c s.index) else 1) - 1)
              AnalysisData.set_is_jump
            = some (modifyAt s.jumps
              (s.index + (if (t (getByte c s.index)).is_push = true
                then pushAdvance (getByte c s.index) else 1) - 1)
              AnalysisData.set_is_jump) from by
              unfold modifyAtC
              rw [if_pos (by rw [hps, hlen]; simp; omega)]]
        · rw [if_neg hj, if_neg hj]
      · rw [if_neg hbe, if_neg hbe]
        exact ih _ hlen
    · rw [if_neg hlt, if_neg hlt]

theorem loop2C_noop (t : Nat → OpInfo) (c : List Nat) :
    ∀ fuel s, c.length ≤ s.index → loop2C t c fuel s = some s := by
  intro fuel
  cases fuel with
  | zero => exact fun s _ => rfl
  | succ f =>
    intro s h
    simp only [loop2C]
    rw [if_neg (by omega)]

theorem loop2_bs (t : Nat → OpInfo) (c : List Nat) :
    ∀ fuel s, (loop2 t c fuel s).block_start = s.block_start
      ∨ (loop2 t c fuel s).block_start < c.length := by
  intro fuel
  induction fuel with
  | zero => exact fun s => Or.inl rfl
  | succ f ih =>
    intro s
    simp only [loop2]
    by_cases hlt : s.index < c.length
    · rw [if_pos hlt]
      by_cases hbe : (t (getByte c s.index)).is_gas_block_end = true
      · rw [if_pos hbe]
        rcases ih { index := s.index + 1
                    first_gas_block := s.first_gas_block
                    gas_in_block := 0
                    block_start := s.index
                    jumps :=
                      modifyAt
                        (if (t (getByte c s.index)).is_jump = true then
                          modifyAt s.jumps s.index AnalysisData.set_is_jump
                         else s.jumps)
                        s.block_start
                        (AnalysisData.set_gas_block
                          ((s.gas_in_block + (t (getByte c s.index)).gas) % 4294967296)) }
          with h | h
        · rw [h]
          exact Or.inr hlt
        · exact Or.inr h
      · rw [if_neg hbe]
        rcases ih { s with
            gas_in_block := (s.gas_in_block + (t (getByte c s.index)).gas) % 4294967296
            index := s.index +
              (if (t (getByte c s.index)).is_push = true then pushAdvance (getByte c s.index)
               else 1) } with h | h
        · rw [h]
          exact Or.inl rfl
        · exact Or.inr h
    · rw [if_neg hlt]
      exact Or.inl rfl

theorem loop2C_eq (t : Nat → OpInfo) (c : List Nat) (hb : ∀ b ∈ c, b < 256) :
    ∀ fuel s, s.jumps.length = c.length → s.block_start < s.index →
      loop2C t c fuel s = some (loop2 t c fuel s) := by
  intro fuel
  induction fuel with
  | zero => exact fun s _ _ => rfl
  | succ f ih =>
    intro s hlen hbi
    simp only [loop2C, loop2]
    by_cases hlt : s.index < c.length
    · rw [if_pos hlt, if_pos hlt, getByteC_eq c s.index hlt]
      simp only []
      rw [if_pos (hb _ (getByte_mem c s.index hlt))]
      by_cases hbe : (t (getByte c s.index)).is_gas_block_end = true
      · rw [if_pos hbe, if_pos hbe]
        have hj1 :
            (if (t (getByte c s.index)).is_jump = true then
              modifyAtC s.jumps s.index AnalysisData.set_is_jump
             else some s.jumps)
            = some (if (t (getByte c s.index)).is_jump = true then
                modifyAt s.jumps s.index AnalysisData.set_is_jump
              else s.jumps) := by
          by_cases hj : (t (getByte c s.index)).is_jump = true
          · rw [if_pos hj, if_pos hj]
            unfold modifyAtC
            rw [if_pos (by rw [hlen]; exact hlt)]
          · rw [if_neg hj, if_neg hj]
        rw [hj1]
        simp only []
        rw [show modifyAtC
            (if (t (getByte c s.index)).is_jump = true then
              modifyAt s.jumps s.index AnalysisData.set_is_jump
             else s.jumps)
            s.block_start
            (AnalysisData.set_gas_block
              ((s.gas_in_block + (t (getByte c s.index)).gas) % 4294967296))
          = some (modifyAt
            (if (t (getByte c s.index)).is_jump = true then
              modifyAt s.jumps s.index AnalysisData.set_is_jump
             else s.jumps)
            s.block_start
            (AnalysisData.set_gas_block
              ((s.gas_in_block + (t (getByte c s.index)).gas) % 4294967296))) from by
          unfold modifyAtC
          rw [if_pos (by
            by_cases hj : (t (getByte c s.index)).is_jump = true
            · rw [if_pos hj, length_modifyAt, hlen]; omega
            · rw [if_neg hj, hlen]; omega)]]
        simp only []
        exact ih _ (by
            simp only [length_modifyAt]
            by_cases hj : (t (getByte c s.index)).is_jump = true
            · rw [if_pos hj, length_modifyAt]; exact hlen
            · rw [if_neg hj]; exact hlen)
          (by simp only []; omega)
      · rw [if_neg hbe, if_neg hbe]
        exact ih _ hlen (by simp only []; omega)
    · rw [if_neg hlt, if_neg hlt]

theorem analyzeChecked_eq (t : Nat → OpInfo) (c : List Nat)
    (hpb : ∀ op, (t op).is_gas_block_end = true → (t op).is_push = false)
    (hb : ∀ b ∈ c, b < 256) :
    analyzeChecked t c = some (analyze t c) := by
  have hlen1 : (loop1 t c c.length (initState c)).jumps.length = c.length := by
    rw [(loop1_frame t c c.length (initState c)).2.1]
    simp [initState]
  have hgib1 : (loop1 t c c.length (initState c)).gas_in_block = 0 :=
    (loop1_frame t c c.length (initState c)).1
  simp only [analyzeChecked, analyze, analyzeFinal]
  rw [loop1C_eq t c hpb hb c.length (initState c) (by simp [initState])]
  simp only []
  rcases loop1_post t c hpb c.length (initState c)
      (by show c.length ≤ c.length + 0; omega) with ⟨hbs, hidx⟩ | ⟨hbs, hbslt⟩
  · rw [loop2C_noop t c c.length _ hidx, loop2_noop t c c.length _ hidx]
    simp only [hgib1]
    rw [if_neg (by omega), if_neg (by omega)]
  · rw [loop2C_eq t c hb c.length _ hlen1 (by omega)]
    simp only []
    by_cases hgib :
        (loop2 t c c.length (loop1 t c c.length (initState c))).gas_in_block ≠ 0
    · rw [if_pos hgib, if_pos hgib]
      have hbs2 :
          (loop2 t c c.length (loop1 t c c.length (initState c))).block_start < c.length := by
        rcases loop2_bs t c c.length (loop1 t c c.length (initState c)) with h | h
        · rw [h]; exact hbslt
        · exact h
      have hlen2 :
          (loop2 t c c.length (loop1 t c c.length (initState c))).jumps.length = c.length := by
        rw [loop2_length]; exact hlen1
      rw [show modifyAtC
          (loop2 t c c.length (loop1 t c c.length (initState c))).jumps
          (loop2 t c c.length (loop1 t c c.length (initState c))).block_start
          (AnalysisData.set_gas_block
            (loop2 t c c.length (loop1 t c c.length (initState c))).gas_in_block)
        = some (modifyAt
          (loop2 t c c.length (loop1 t c c.length (initState c))).jumps
          (loop2 t c c.length (loop1 t c c.length (initState c))).block_start
          (AnalysisData.set_gas_block
            (loop2 t c c.length (loop1 t c c.length (initState c))).gas_in_block)) from by
        unfold modifyAtC
        rw [if_pos (by rw [hlen2]; exact hbs2)]]
    · rw [if_neg hgib, if_neg hgib]

/-- C6: for every raw byte sequence, `to_checked` pads the buffer with 33 zero
bytes beyond the original length, and on that padded buffer every buffer
access performed by the analysis pass — the code-byte reads, the 256-entry
opcode-table lookups, and the annotation-array writes — is in bounds: the
bounds-checked analysis (whose `none` result models the unchecked-index error
branch) succeeds and agrees with the unchecked one, including when the code
ends exactly at a push opcode whose declared operand length exceeds the
remaining original bytes. -/
theorem to_checked_pads_and_analysis_in_bounds (table : Nat → OpInfo)
    (hpb : ∀ op, (table op).is_gas_block_end = true → (table op).is_push = false)
    (bs : List Nat) (hbytes : ∀ b ∈ bs, b < 256) :
    (Bytecode.to_checked (Bytecode.new_raw bs)).bytecode = bs ++ List.replicate 33 0
    ∧ analyzeChecked table ((Bytecode.to_checked (Bytecode.new_raw bs)).bytecode)
        = some (analyze table ((Bytecode.to_checked (Bytecode.new_raw bs)).bytecode)) := by
  refine ⟨rfl, ?_⟩
  show analyzeChecked table (bs ++ List.replicate 33 0)
    = some (analyze table (bs ++ List.replicate 33 0))
  refine analyzeChecked_eq table _ hpb ?_
  intro b hbm
  rcases List.mem_append.1 hbm with h | h
  · exact hbytes b h
  · rw [List.eq_of_mem_replicate h]
    omega

theorem to_checked_pads_and_analysis_in_bounds_witness :
    (Bytecode.to_checked (Bytecode.new_raw [127])).bytecode = [127] ++ List.replicate 33 0
    ∧ analyzeChecked spec_opcode_gas ((Bytecode.to_checked (Bytecode.new_raw [127])).bytecode)
        = some (analyze spec_opcode_gas ((Bytecode.to_checked (Bytecode.new_raw [127])).bytecode)) :=
  to_checked_pads_and_analysis_in_bounds spec_opcode_gas spec_opcode_gas_push_not_end
    [127] (by decide)
